import Mathlib

/-!
Verification of the signal-processing and scoring core of the neuroscan labs.

The definitions below are shallow embeddings of the algorithmic bodies in
src/components/labs/MotorLab.tsx and src/components/labs/EyeLab.tsx:
rolling sample buffers, the tap event detector, the brute-force DFT tremor
analyzer, the coordination score, the n-back trial bookkeeping, the inverse
normal CDF / d-prime computation, the autocorrelation pitch estimator and the
jitter computation.  JavaScript numbers are modelled as real numbers, loop
state as explicit folds, and nullable results as Option.
-/

namespace NeuroScan

/-! ### Rolling buffers

Both labs bound their buffers the same way: append, then if the length
exceeds the capacity, `splice(0, length - capacity)` removes the oldest
excess elements (MotorLab.tsx lines 167 and 240).  `pushTrim` is one
append-then-trim step. -/

def pushTrim (cap : Nat) (buf : List α) (x : α) : List α :=
  if (buf ++ [x]).length > cap then (buf ++ [x]).drop ((buf ++ [x]).length - cap)
  else buf ++ [x]

/-- The last `cap` elements of a list (all of it if shorter). -/
def lastN (cap : Nat) (l : List α) : List α := l.drop (l.length - cap)

theorem lastN_of_le {cap : Nat} {l : List α} (h : l.length ≤ cap) : lastN cap l = l := by
  simp [lastN, Nat.sub_eq_zero_of_le h]

theorem lastN_length (cap : Nat) (l : List α) :
    (lastN cap l).length = l.length - (l.length - cap) := by
  simp [lastN]

theorem lastN_length_le (cap : Nat) (l : List α) : (lastN cap l).length ≤ cap := by
  rw [lastN_length]; omega

theorem pushTrim_eq_lastN {cap : Nat} (buf : List α) (x : α) :
    pushTrim cap buf x = lastN cap (buf ++ [x]) := by
  unfold pushTrim lastN
  split
  · rfl
  · next h =>
    have h0 : buf.length + 1 - cap = 0 := by
      simp only [List.length_append, List.length_cons, List.length_nil, gt_iff_lt,
        not_lt] at h
      omega
    simp [h0]

theorem lastN_append (cap : Nat) (m xs : List α) :
    lastN cap (lastN cap m ++ xs) = lastN cap (m ++ xs) := by
  unfold lastN
  rw [← List.drop_append_of_le_length (Nat.sub_le m.length cap), List.drop_drop]
  congr 1
  simp only [List.length_drop, List.length_append]
  omega

/-- Folding `pushTrim` over any input list keeps exactly the last `cap`
elements, in order. -/
theorem foldl_pushTrim (cap : Nat) (init : List α) (xs : List α)
    (hinit : init.length ≤ cap) :
    xs.foldl (pushTrim cap) init = lastN cap (init ++ xs) := by
  induction xs generalizing init with
  | nil => simp [lastN_of_le hinit]
  | cons x xs ih =>
    rw [List.foldl_cons, pushTrim_eq_lastN, ih _ (lastN_length_le _ _)]
    calc lastN cap (lastN cap (init ++ [x]) ++ xs)
        = lastN cap ((init ++ [x]) ++ xs) := lastN_append _ _ _
      _ = lastN cap (init ++ x :: xs) := by simp

/-- C4.  For both capacities used by the labs (300 tremor samples, 600 tap
intervals), feeding `cap + k` samples one at a time into an initially empty
rolling buffer leaves exactly `cap` elements, namely the last `cap` samples
pushed in their original order (FIFO eviction), and the length never exceeds
the capacity at any intermediate point. -/
theorem rollingBuffer_fifo {α : Type} (cap k : Nat) (xs : List α)
    (hcap : cap = 300 ∨ cap = 600) (hlen : xs.length = cap + k) :
    xs.foldl (pushTrim cap) [] = xs.drop k ∧
    (xs.foldl (pushTrim cap) []).length = cap ∧
    ∀ n : Nat, ((xs.take n).foldl (pushTrim cap) []).length ≤ cap := by
  have hmain : xs.foldl (pushTrim cap) [] = lastN cap xs := by
    simpa using foldl_pushTrim cap [] xs (by simp)
  refine ⟨?_, ?_, ?_⟩
  · rw [hmain]; unfold lastN; rw [hlen]; congr 1; omega
  · rw [hmain, lastN_length]; omega
  · intro n
    rw [show ((xs.take n).foldl (pushTrim cap) []) = lastN cap (xs.take n) by
      simpa using foldl_pushTrim cap [] (xs.take n) (by simp)]
    exact lastN_length_le _ _

/-- Witness for C4 at a concrete input: 301 integers through the
300-capacity buffer drop exactly the first one. -/
theorem rollingBuffer_fifo_witness :
    ((List.range 301).foldl (pushTrim 300) [] = (List.range 301).drop 1 ∧
     ((List.range 301).foldl (pushTrim 300) []).length = 300 ∧
     ∀ n : Nat, (((List.range 301).take n).foldl (pushTrim 300) []).length ≤ 300) :=
  rollingBuffer_fifo 300 1 (List.range 301) (Or.inl rfl) (by simp)

/-! ### Tap event detector (MotorLab.tsx, registerTap, lines 160-169)

State held in React refs: lastTapTimeRef (null initially, read through
`?? 0`), the tap counter, and the interval buffer (capacity 600).  A call
fires only when more than 200 ms have passed since the last fired tap; the
recorded interval is `now - (last || now)`, i.e. 0 when the coalesced last
time is 0.  Timestamps are Date.now() milliseconds, modelled as integers. -/

structure TapState where
  lastTapTime : Option Int
  fingerTaps : Nat
  tapIntervals : List Int
deriving DecidableEq, Repr

def registerTap (s : TapState) (now : Int) : TapState × Bool :=
  let last := s.lastTapTime.getD 0
  if now - last ≤ 200 then (s, false)
  else
    ({ lastTapTime := some now,
       fingerTaps := s.fingerTaps + 1,
       tapIntervals := pushTrim 600 s.tapIntervals (now - (if last = 0 then now else last)) },
     true)

/-- Run the detector over a stream of call timestamps; returns the final
state and the timestamps at which a tap event actually fired. -/
def runTaps : TapState → List Int → TapState × List Int
  | s, [] => (s, [])
  | s, t :: ts =>
    let step := registerTap s t
    let rest := runTaps step.1 ts
    (rest.1, (if step.2 then [t] else []) ++ rest.2)

theorem registerTap_no_fire {s : TapState} {now : Int}
    (h : now - s.lastTapTime.getD 0 ≤ 200) : registerTap s now = (s, false) := by
  unfold registerTap
  simp [h]

theorem registerTap_fire {s : TapState} {now : Int}
    (h : ¬ now - s.lastTapTime.getD 0 ≤ 200) :
    (registerTap s now).2 = true ∧ (registerTap s now).1.lastTapTime = some now := by
  unfold registerTap
  simp [h]

/-- Every fired tap is separated by more than 200 ms from the previous
fired tap (or from the initial coalesced last-event time). -/
theorem runTaps_chain (ts : List Int) (s : TapState) :
    List.Chain' (fun a b => 200 < b - a) (s.lastTapTime.getD 0 :: (runTaps s ts).2) := by
  induction ts generalizing s with
  | nil => simp [runTaps]
  | cons t ts ih =>
    unfold runTaps
    by_cases h : t - s.lastTapTime.getD 0 ≤ 200
    · rw [registerTap_no_fire h]
      simpa using ih s
    · have hf := registerTap_fire h
      rcases hf with ⟨h2, hlast⟩
      simp only [h2, if_pos]
      have ihs := ih (registerTap s t).1
      rw [hlast] at ihs
      simp only [Option.getD_some] at ihs
      exact List.Chain'.cons (by omega) ihs

/-- C3.  Refractory period of the tap detector: a call within 200 ms of the
previous fired event fires nothing and leaves the whole detector state
(count, interval buffer, last-event time) unchanged, and on any input
stream the fired events, starting from the coalesced initial last-event
time, are pairwise separated by strictly more than 200 ms. -/
theorem tapDetector_refractory :
    (∀ (s : TapState) (now : Int), now - s.lastTapTime.getD 0 ≤ 200 →
       registerTap s now = (s, false)) ∧
    (∀ (ts : List Int) (s : TapState),
       List.Chain' (fun a b => 200 < b - a) (s.lastTapTime.getD 0 :: (runTaps s ts).2)) :=
  ⟨fun _ _ h => registerTap_no_fire h, fun ts s => runTaps_chain ts s⟩

/-- Witness for C3: from the fresh state, a call at time 100 (within 200 ms
of the coalesced initial time 0) fires nothing and changes nothing. -/
theorem tapDetector_refractory_witness :
    registerTap ⟨none, 0, []⟩ 100 = (⟨none, 0, []⟩, false) :=
  tapDetector_refractory.1 ⟨none, 0, []⟩ 100 (by decide)

/-! ### N-back trial state machine (EyeLab.tsx, runTrial lines 210-267 and
onNBackAnswer lines 342-360)

Per trial `t` the component resets the per-trial debounce flag
(`responseTaken.current = false`), shows letter `nBackSeq[t]`, and starts the
SOA end-of-trial timer.  A response (`onNBackAnswer`) is ignored if the flag
is already set; otherwise it sets the flag and records a hit when the
current letter matches the letter `nVal` steps earlier, else a false alarm.
The SOA timer always fires and records a miss (target) or correct rejection
(non-target) only if no response was taken; then the next trial starts.
Timers are abstracted away: a trial consists of some number of response
events followed by one timeout. -/

inductive Outcome where
  | hit | miss | false_alarm | correct_rejection
deriving DecidableEq, Repr

def nVal : Nat := 2

def totalTrials : Nat := 20

/-- Target-position truth used by both runTrial and onNBackAnswer:
`t >= nVal && nBackSeq[t - nVal] === nBackSeq[t]`. -/
def isTargetAt (seq : List Char) (t : Nat) : Bool :=
  decide (nVal ≤ t) && (seq.get? (t - nVal) == seq.get? t)

structure NBState where
  responseTaken : Bool
  results : List (Nat × Outcome)

def onNBackAnswer (seq : List Char) (t : Nat) (s : NBState) : NBState :=
  if s.responseTaken then s
  else { responseTaken := true,
         results := s.results ++
           [(t + 1, if isTargetAt seq t then Outcome.hit else Outcome.false_alarm)] }

def nbackTimeoutStep (seq : List Char) (t : Nat) (s : NBState) : NBState :=
  if s.responseTaken then s
  else { s with results := s.results ++
           [(t + 1, if isTargetAt seq t then Outcome.miss else Outcome.correct_rejection)] }

/-- One trial: debounce flag reset, `presses` response events, then the
end-of-trial timeout. -/
def runNBackTrial (seq : List Char) (t presses : Nat) (acc : List (Nat × Outcome)) :
    List (Nat × Outcome) :=
  (nbackTimeoutStep seq t ((onNBackAnswer seq t)^[presses] ⟨false, acc⟩)).results

/-- A full session: trials 0 .. totalTrials-1 in order, with `policy t`
response events arriving during trial `t`. -/
def runNBackSession (seq : List Char) (policy : Nat → Nat) : List (Nat × Outcome) :=
  (List.range totalTrials).foldl (fun acc t => runNBackTrial seq t (policy t) acc) []

/-- The single outcome a trial records, as a function of whether any
response arrived and target truth. -/
def trialOutcome (seq : List Char) (t presses : Nat) : Outcome :=
  if presses = 0 then
    (if isTargetAt seq t then Outcome.miss else Outcome.correct_rejection)
  else
    (if isTargetAt seq t then Outcome.hit else Outcome.false_alarm)

theorem onNBackAnswer_taken {seq : List Char} {t : Nat} {s : NBState}
    (h : s.responseTaken = true) : onNBackAnswer seq t s = s := by
  unfold onNBackAnswer; simp [h]

theorem iterate_onNBackAnswer (seq : List Char) (t : Nat) (acc : List (Nat × Outcome)) :
    ∀ n : Nat, 0 < n →
      (onNBackAnswer seq t)^[n] ⟨false, acc⟩ =
        ⟨true, acc ++ [(t + 1, if isTargetAt seq t then Outcome.hit else Outcome.false_alarm)]⟩ := by
  intro n hn
  induction n with
  | zero => omega
  | succ m ih =>
    rw [Function.iterate_succ_apply]
    rcases Nat.eq_zero_or_pos m with hm | hm
    · subst hm
      simp [onNBackAnswer]
    · rw [show onNBackAnswer seq t ⟨false, acc⟩ =
          ({ responseTaken := true,
             results := acc ++ [(t + 1, if isTargetAt seq t then Outcome.hit
                                        else Outcome.false_alarm)] } : NBState) by
        simp [onNBackAnswer]]
      have : ∀ k : Nat, ∀ s : NBState, s.responseTaken = true →
          (onNBackAnswer seq t)^[k] s = s := by
        intro k
        induction k with
        | zero => intro s _; rfl
        | succ j ihj =>
          intro s hs
          rw [Function.iterate_succ_apply, onNBackAnswer_taken hs]
          exact ihj s hs
      exact this m _ rfl

/-- Each trial appends exactly one record, for trial index t+1. -/
theorem runNBackTrial_eq (seq : List Char) (t presses : Nat) (acc : List (Nat × Outcome)) :
    runNBackTrial seq t presses acc = acc ++ [(t + 1, trialOutcome seq t presses)] := by
  unfold runNBackTrial trialOutcome
  rcases Nat.eq_zero_or_pos presses with hp | hp
  · subst hp
    simp [nbackTimeoutStep]
  · rw [iterate_onNBackAnswer seq t acc presses hp]
    simp only [nbackTimeoutStep]
    simp [if_neg (Nat.pos_iff_ne_zero.mp hp)]

theorem runNBackSession_eq (seq : List Char) (policy : Nat → Nat) :
    runNBackSession seq policy =
      (List.range totalTrials).map (fun t => (t + 1, trialOutcome seq t (policy t))) := by
  unfold runNBackSession
  have key : ∀ (l : List Nat) (acc : List (Nat × Outcome)),
      l.foldl (fun acc t => runNBackTrial seq t (policy t) acc) acc =
        acc ++ l.map (fun t => (t + 1, trialOutcome seq t (policy t))) := by
    intro l
    induction l with
    | nil => simp
    | cons t l ih =>
      intro acc
      rw [List.foldl_cons, runNBackTrial_eq, ih]
      simp
  simpa using key (List.range totalTrials) []

/-- C2.  In a 20-trial n-back run where responses arrive exactly on the true
target positions (and are ignored after the first per trial), the session
records exactly one outcome per trial, 20 in all, with zero false alarms and
zero misses. -/
theorem nback_perfect_run (seq : List Char) (policy : Nat → Nat)
    (hresp : ∀ t, t < totalTrials → (0 < policy t ↔ isTargetAt seq t = true)) :
    (runNBackSession seq policy).length = totalTrials ∧
    (∀ t, t < totalTrials →
      ((runNBackSession seq policy).filter (fun r => r.1 = t + 1)).length = 1) ∧
    ((runNBackSession seq policy).filter (fun r => r.2 = Outcome.false_alarm)).length = 0 ∧
    ((runNBackSession seq policy).filter (fun r => r.2 = Outcome.miss)).length = 0 := by
  rw [runNBackSession_eq]
  have houtcome : ∀ t, t < totalTrials →
      trialOutcome seq t (policy t) = Outcome.hit ∨
      trialOutcome seq t (policy t) = Outcome.correct_rejection := by
    intro t ht
    unfold trialOutcome
    by_cases htar : isTargetAt seq t = true
    · have : 0 < policy t := (hresp t ht).mpr htar
      rw [if_neg (by omega), if_pos htar]
      exact Or.inl rfl
    · have : policy t = 0 := by
        by_contra hp
        exact htar ((hresp t ht).mp (Nat.pos_of_ne_zero hp))
      rw [if_pos this, if_neg htar]
      exact Or.inr rfl
  refine ⟨by simp, ?_, ?_, ?_⟩
  · intro t ht
    rw [← List.countP_eq_length_filter, List.countP_map]
    have hfun : ((fun r : Nat × Outcome => decide (r.1 = t + 1)) ∘
        (fun u => (u + 1, trialOutcome seq u (policy u)))) = (fun u => u == t) := by
      funext u
      by_cases h : u = t
      · subst h; simp
      · simp [Function.comp, h, add_left_inj]
    rw [hfun]
    exact List.count_eq_one_of_mem (List.nodup_range totalTrials) (List.mem_range.mpr ht)
  · rw [← List.countP_eq_length_filter, List.countP_eq_zero]
    intro r hr
    rcases List.mem_map.mp hr with ⟨t, ht, rfl⟩
    rcases houtcome t (List.mem_range.mp ht) with h | h <;> simp [h]
  · rw [← List.countP_eq_length_filter, List.countP_eq_zero]
    intro r hr
    rcases List.mem_map.mp hr with ⟨t, ht, rfl⟩
    rcases houtcome t (List.mem_range.mp ht) with h | h <;> simp [h]

/-- Witness for C2: a 20-letter ABC-repeating sequence has no 2-back targets;
with no responses the run has 20 outcomes, one per trial, and no false
alarms or misses. -/
theorem nback_perfect_run_witness :
    (runNBackSession
        ['A','B','C','A','B','C','A','B','C','A','B','C','A','B','C','A','B','C','A','B']
        (fun _ => 0)).length = totalTrials ∧
    (∀ t, t < totalTrials →
      ((runNBackSession
          ['A','B','C','A','B','C','A','B','C','A','B','C','A','B','C','A','B','C','A','B']
          (fun _ => 0)).filter (fun r => r.1 = t + 1)).length = 1) ∧
    ((runNBackSession
        ['A','B','C','A','B','C','A','B','C','A','B','C','A','B','C','A','B','C','A','B']
        (fun _ => 0)).filter (fun r => r.2 = Outcome.false_alarm)).length = 0 ∧
    ((runNBackSession
        ['A','B','C','A','B','C','A','B','C','A','B','C','A','B','C','A','B','C','A','B']
        (fun _ => 0)).filter (fun r => r.2 = Outcome.miss)).length = 0 :=
  nback_perfect_run _ _ (by decide)

/-! ### Strict-improvement peak scan

Both peak-picking loops (`for k ... if (mag > bestMag) {bestMag=mag;bestK=k}`
in computeTremorMetrics, and the analogous lag loop in autocorrelatePitch)
are folds of the same step over an ascending index list, starting from the
sentinel accumulator `(-1, 0)`. -/

noncomputable def bestScan (f : Int → ℝ) (ks : List Int) (acc : Int × ℝ) : Int × ℝ :=
  match ks with
  | [] => acc
  | k :: ks => bestScan f ks (if acc.2 < f k then (k, f k) else acc)

theorem bestScan_nil (f : Int → ℝ) (acc : Int × ℝ) : bestScan f [] acc = acc := rfl

theorem bestScan_cons (f : Int → ℝ) (k : Int) (ks : List Int) (acc : Int × ℝ) :
    bestScan f (k :: ks) acc = bestScan f ks (if acc.2 < f k then (k, f k) else acc) := rfl

/-- The ascending integer list a, a+1, ..., b (empty when b < a), i.e. the
index sequence of a JavaScript `for (k = a; k <= b; k++)` loop. -/
def intRange (a b : Int) : List Int :=
  (List.range (b + 1 - a).toNat).map (fun i : Nat => a + (i : Int))

theorem intRange_mem {a b k : Int} : k ∈ intRange a b ↔ a ≤ k ∧ k ≤ b := by
  unfold intRange
  constructor
  · intro h
    obtain ⟨i, hi, rfl⟩ := List.mem_map.mp h
    have := List.mem_range.mp hi
    omega
  · intro h
    refine List.mem_map.mpr ⟨(k - a).toNat, List.mem_range.mpr ?_, ?_⟩ <;> omega

theorem intRange_pairwise (a b : Int) : (intRange a b).Pairwise (· < ·) := by
  unfold intRange
  exact List.Pairwise.map _ (fun i j h => by omega) (List.pairwise_lt_range _)

theorem intRange_append {a b c : Int} (hab : a ≤ b + 1) (hbc : b ≤ c) :
    intRange a c = intRange a b ++ intRange (b + 1) c := by
  unfold intRange
  have h1 : (c + 1 - a).toNat = (b + 1 - a).toNat + (c - b).toNat := by omega
  have h2 : (c + 1 - (b + 1)).toNat = (c - b).toNat := by omega
  rw [h1, h2, List.range_add, List.map_append, List.map_map]
  congr 1
  apply List.map_congr_left
  intro x _
  simp only [Function.comp_apply]
  push_cast [Int.toNat_of_nonneg (show (0:ℤ) ≤ b + 1 - a by omega)]
  ring

/-- Main fold invariants of the strict-`>` scan over a strictly ascending
index list whose entries all exceed the initial best index: the best value
is monotone, dominates every scanned value, the pair is either untouched or
a strict improvement realised at a scanned index, and every index strictly
before the final best index has a strictly smaller value (first-wins
tie-breaking). -/
theorem bestScan_spec (f : Int → ℝ) :
    ∀ (ks : List Int) (acc : Int × ℝ), ks.Pairwise (· < ·) → (∀ k ∈ ks, acc.1 < k) →
      acc.2 ≤ (bestScan f ks acc).2 ∧
      (∀ k ∈ ks, f k ≤ (bestScan f ks acc).2) ∧
      (bestScan f ks acc = acc ∨
        ((bestScan f ks acc).1 ∈ ks ∧ f (bestScan f ks acc).1 = (bestScan f ks acc).2 ∧
          acc.2 < (bestScan f ks acc).2)) ∧
      (∀ k ∈ ks, k < (bestScan f ks acc).1 → f k < (bestScan f ks acc).2) := by
  intro ks
  induction ks with
  | nil => intro acc _ _; simp [bestScan_nil]
  | cons k ks ih =>
    intro acc hpw hgt
    have hpw' : ks.Pairwise (· < ·) := hpw.of_cons
    have hktail : ∀ j ∈ ks, k < j := fun j hj => (List.pairwise_cons.mp hpw).1 j hj
    by_cases hup : acc.2 < f k
    · have hstep : bestScan f (k :: ks) acc = bestScan f ks (k, f k) := by
        rw [bestScan_cons, if_pos hup]
      have IH := ih (k, f k) hpw' (fun j hj => hktail j hj)
      rcases IH with ⟨ih1, ih2, ih3, ih4⟩
      rw [hstep]
      refine ⟨le_trans (le_of_lt hup) ih1, ?_, ?_, ?_⟩
      · intro j hj
        rcases List.mem_cons.mp hj with hjk | hj'
        · subst hjk; exact ih1
        · exact ih2 j hj'
      · rcases ih3 with heq | ⟨hmem, hval, hlt⟩
        · refine Or.inr ⟨?_, ?_, ?_⟩
          · rw [heq]; exact List.mem_cons_self _ _
          · rw [heq]
          · rw [heq]; exact hup
        · exact Or.inr ⟨List.mem_cons_of_mem _ hmem, hval, lt_trans hup hlt⟩
      · intro j hj hjlt
        rcases List.mem_cons.mp hj with hjk | hj'
        · -- j = k and k is before the final best index, so the scan improved
          subst hjk
          rcases ih3 with heq | ⟨_, _, hlt⟩
          · rw [heq] at hjlt; exact absurd hjlt (lt_irrefl _)
          · simpa using hlt
        · exact ih4 j hj' hjlt
    · have hstep : bestScan f (k :: ks) acc = bestScan f ks acc := by
        rw [bestScan_cons, if_neg hup]
      have IH := ih acc hpw' (fun j hj => lt_trans (hgt k (List.mem_cons_self _ _)) (hktail j hj))
      rcases IH with ⟨ih1, ih2, ih3, ih4⟩
      rw [hstep]
      refine ⟨ih1, ?_, ?_, ?_⟩
      · intro j hj
        rcases List.mem_cons.mp hj with hjk | hj'
        · subst hjk; exact le_trans (not_lt.mp hup) ih1
        · exact ih2 j hj'
      · rcases ih3 with heq | ⟨hmem, hval, hlt⟩
        · exact Or.inl heq
        · exact Or.inr ⟨List.mem_cons_of_mem _ hmem, hval, hlt⟩
      · intro j hj hjlt
        rcases List.mem_cons.mp hj with hjk | hj'
        · -- j = k: the final best index exceeds k, so the scan improved
          subst hjk
          rcases ih3 with heq | ⟨_, _, hlt⟩
          · rw [heq] at hjlt
            exact absurd hjlt (not_lt.mpr (le_of_lt (hgt j (List.mem_cons_self _ _))))
          · exact lt_of_le_of_lt (not_lt.mp hup) hlt
        · exact ih4 j hj' hjlt

/-- If every scanned value is at most the current best value, the scan is a
no-op (used to evaluate long all-dominated tails of concrete loops). -/
theorem bestScan_untouched (f : Int → ℝ) (ks : List Int) (acc : Int × ℝ)
    (h : ∀ k ∈ ks, f k ≤ acc.2) : bestScan f ks acc = acc := by
  induction ks with
  | nil => rfl
  | cons k ks ih =>
    rw [bestScan_cons, if_neg (not_lt.mpr (h k (List.mem_cons_self _ _)))]
    exact ih (fun j hj => h j (List.mem_cons_of_mem _ hj))

theorem bestScan_append (f : Int → ℝ) (l₁ l₂ : List Int) (acc : Int × ℝ) :
    bestScan f (l₁ ++ l₂) acc = bestScan f l₂ (bestScan f l₁ acc) := by
  induction l₁ generalizing acc with
  | nil => rfl
  | cons k l₁ ih => rw [List.cons_append, bestScan_cons, bestScan_cons]; exact ih _

/-! ### Tremor metrics (MotorLab.tsx, computeTremorMetrics, lines 262-275)

A sample is a pair (t, y): capture timestamp in ms and the wrist y position
in pixels.  The analyzer needs at least 6 samples, normalizes the population
standard deviation by the frame height, and picks the discrete Fourier
harmonic k in 1..floor(n/2) of maximal magnitude with a strict-greater
comparison starting from bestK = -1, bestMag = 0. -/

noncomputable def tremorMag (ys : List ℝ) (k : Int) : ℝ :=
  let n := ys.length
  let re := ∑ j in Finset.range n, ys.getD j 0 * Real.cos ((-2) * Real.pi * k * j / n)
  let im := ∑ j in Finset.range n, ys.getD j 0 * Real.sin ((-2) * Real.pi * k * j / n)
  Real.sqrt (re * re + im * im)

noncomputable def tremorDurationMs (samples : List (ℝ × ℝ)) : ℝ :=
  let ts := samples.map Prod.fst
  ts.getD (ts.length - 1) 0 - ts.getD 0 0

/-- Effective sample rate: (n-1) / duration in seconds. -/
noncomputable def tremorFs (samples : List (ℝ × ℝ)) : ℝ :=
  ((samples.length : ℝ) - 1) / (tremorDurationMs samples / 1000)

noncomputable def computeTremorMetrics (videoHeight : ℝ) (samples : List (ℝ × ℝ)) : ℝ × ℝ :=
  if samples.length < 6 then (0, 0) else
  let ys := samples.map Prod.snd
  let n := ys.length
  let mean := ys.sum / n
  let std := Real.sqrt ((ys.map (fun y => (y - mean) ^ 2)).sum / n)
  let ampNorm := std / videoHeight
  if tremorDurationMs samples ≤ 0 then (ampNorm, 0) else
  let fs := tremorFs samples
  let r := bestScan (tremorMag ys) (intRange 1 ((n : Int) / 2)) (-1, 0)
  (ampNorm, if 0 < r.1 then ((r.1 : ℝ) * fs) / n else 0)

/-- Specification-side description of the selected peak: k is in the scanned
index list, its value dominates all scanned values, and every strictly
earlier index has a strictly smaller value (first-wins tie-break under
strict greater-than). -/
def firstArgmaxProp (f : Int → ℝ) (ks : List Int) (k : Int) : Prop :=
  k ∈ ks ∧ (∀ j ∈ ks, f j ≤ f k) ∧ (∀ j ∈ ks, j < k → f j < f k)

/-- C9.  Fewer than 6 samples give the defined zero result (0, 0); the
analyzer is a total function, so no error can occur. -/
theorem tremor_short_input_zero (videoHeight : ℝ) (samples : List (ℝ × ℝ))
    (h : samples.length < 6) : computeTremorMetrics videoHeight samples = (0, 0) := by
  unfold computeTremorMetrics
  rw [if_pos h]

/-- Witness for C9 at the empty sample list. -/
theorem tremor_short_input_zero_witness : computeTremorMetrics 480 [] = (0, 0) :=
  tremor_short_input_zero 480 [] (by simp)

/-- C1 (amended).  With at least 6 samples, positive time span, and at least
one harmonic of strictly positive magnitude, the dominant frequency is
kstar * fs / n where kstar is the first harmonic index in 1..floor(n/2)
attaining the maximal magnitude (strict-greater first-wins tie-break).  The
amendment adds the positive-magnitude hypothesis: when every harmonic has
magnitude 0 the code leaves bestK = -1 and returns frequency 0 instead of
the frequency of the first tied harmonic. -/
theorem tremor_dominant_freq_amended (videoHeight : ℝ) (samples : List (ℝ × ℝ))
    (h6 : 6 ≤ samples.length) (hdur : 0 < tremorDurationMs samples)
    (hpos : ∃ k ∈ intRange 1 ((samples.length : Int) / 2),
      0 < tremorMag (samples.map Prod.snd) k) :
    ∃ kstar, firstArgmaxProp (tremorMag (samples.map Prod.snd))
        (intRange 1 ((samples.length : Int) / 2)) kstar ∧
      (computeTremorMetrics videoHeight samples).2 =
        ((kstar : ℝ) * tremorFs samples) / samples.length := by
  have hspec := bestScan_spec (tremorMag (samples.map Prod.snd))
    (intRange 1 ((samples.length : Int) / 2)) (-1, 0)
    (intRange_pairwise _ _)
    (fun k hk => by have := intRange_mem.mp hk; simp only; omega)
  set ks := intRange 1 ((samples.length : Int) / 2) with hks
  set f := tremorMag (samples.map Prod.snd) with hf
  set r := bestScan f ks (-1, 0) with hr
  obtain ⟨hs1, hs2, hs3, hs4⟩ := hspec
  obtain ⟨k0, hk0mem, hk0pos⟩ := hpos
  have hrpos : 0 < r.2 := lt_of_lt_of_le hk0pos (hs2 k0 hk0mem)
  rcases hs3 with heq | ⟨hmem, hval, _⟩
  · rw [heq] at hrpos; exact absurd hrpos (by norm_num)
  · have hr1pos : 0 < r.1 := by
      have := (intRange_mem.mp hmem).1; omega
    refine ⟨r.1, ⟨hmem, ?_, ?_⟩, ?_⟩
    · intro j hj; rw [hval]; exact hs2 j hj
    · intro j hj hjlt; rw [hval]; exact hs4 j hj hjlt
    · unfold computeTremorMetrics
      rw [if_neg (by omega), if_neg (not_le.mpr hdur)]
      simp only [List.length_map, ← hks, ← hf, ← hr, if_pos hr1pos, tremorFs]

/-- Witness for C1 (amended): six samples 1 ms apart with a single unit
impulse at t=0; every harmonic has magnitude 1, so the first harmonic wins
and the dominant frequency is 1 * 1000 / 6. -/
theorem tremor_dominant_freq_amended_witness :
    ∃ kstar, firstArgmaxProp
        (tremorMag ([((0:ℝ),(1:ℝ)), (1,0), (2,0), (3,0), (4,0), (5,0)].map Prod.snd))
        (intRange 1 (([((0:ℝ),(1:ℝ)), (1,0), (2,0), (3,0), (4,0), (5,0)].length : Int) / 2))
        kstar ∧
      (computeTremorMetrics 480 [((0:ℝ),(1:ℝ)), (1,0), (2,0), (3,0), (4,0), (5,0)]).2 =
        ((kstar : ℝ) * tremorFs [((0:ℝ),(1:ℝ)), (1,0), (2,0), (3,0), (4,0), (5,0)]) /
          ([((0:ℝ),(1:ℝ)), (1,0), (2,0), (3,0), (4,0), (5,0)].length) := by
  apply tremor_dominant_freq_amended
  · simp
  · unfold tremorDurationMs
    norm_num [List.getD]
  · refine ⟨1, by decide, ?_⟩
    unfold tremorMag
    norm_num [Finset.sum_range_succ, List.getD]

/-- C1 (counterexample).  For the all-zero window of six samples 1 ms apart,
the time span is positive and the claim would demand frequency
kstar * fs / n with kstar the first harmonic among the all-tied (zero)
magnitudes, which is nonzero; the code instead returns frequency 0 because
bestK stays -1 under strict comparison against the initial bestMag = 0. -/
theorem tremor_dominant_freq_cex :
    6 ≤ ([((0:ℝ),(0:ℝ)), (1,0), (2,0), (3,0), (4,0), (5,0)] : List (ℝ × ℝ)).length ∧
    0 < tremorDurationMs [((0:ℝ),(0:ℝ)), (1,0), (2,0), (3,0), (4,0), (5,0)] ∧
    ¬ ∃ kstar, firstArgmaxProp
        (tremorMag ([((0:ℝ),(0:ℝ)), (1,0), (2,0), (3,0), (4,0), (5,0)].map Prod.snd))
        (intRange 1 (([((0:ℝ),(0:ℝ)), (1,0), (2,0), (3,0), (4,0), (5,0)].length : Int) / 2))
        kstar ∧
      (computeTremorMetrics 480 [((0:ℝ),(0:ℝ)), (1,0), (2,0), (3,0), (4,0), (5,0)]).2 =
        ((kstar : ℝ) * tremorFs [((0:ℝ),(0:ℝ)), (1,0), (2,0), (3,0), (4,0), (5,0)]) /
          ([((0:ℝ),(0:ℝ)), (1,0), (2,0), (3,0), (4,0), (5,0)].length) := by
  have hdur : tremorDurationMs [((0:ℝ),(0:ℝ)), (1,0), (2,0), (3,0), (4,0), (5,0)] = 5 := by
    unfold tremorDurationMs
    norm_num [List.getD]
  have hmag : ∀ k : Int,
      tremorMag ([((0:ℝ),(0:ℝ)), (1,0), (2,0), (3,0), (4,0), (5,0)].map Prod.snd) k = 0 := by
    intro k
    unfold tremorMag
    norm_num [Finset.sum_range_succ, List.getD]
  have hfreq : (computeTremorMetrics 480 [((0:ℝ),(0:ℝ)), (1,0), (2,0), (3,0), (4,0), (5,0)]).2
      = 0 := by
    unfold computeTremorMetrics
    rw [if_neg (by norm_num), if_neg (by rw [hdur]; norm_num)]
    rw [bestScan_untouched _ _ _ (fun k _ => le_of_eq (hmag k))]
    norm_num
  refine ⟨by norm_num, by rw [hdur]; norm_num, ?_⟩
  rintro ⟨kstar, ⟨hmem, _, _⟩, heq⟩
  rw [hfreq] at heq
  have hk1 : (1:ℤ) ≤ kstar := (intRange_mem.mp hmem).1
  have hfs : tremorFs [((0:ℝ),(0:ℝ)), (1,0), (2,0), (3,0), (4,0), (5,0)] = 1000 := by
    unfold tremorFs
    rw [hdur]
    norm_num
  have hlen : (([((0:ℝ),(0:ℝ)), (1,0), (2,0), (3,0), (4,0), (5,0)] : List (ℝ × ℝ)).length : ℝ)
      = 6 := by norm_num
  rw [hfs, hlen] at heq
  have hkR : (0:ℝ) < (kstar : ℝ) := by exact_mod_cast (show (0:ℤ) < kstar by omega)
  have hpos : (0:ℝ) < (kstar : ℝ) * 1000 / 6 :=
    div_pos (mul_pos hkR (by norm_num)) (by norm_num)
  rw [← heq] at hpos
  exact lt_irrefl 0 hpos

/-! ### Coordination score (MotorLab.tsx, computeCoordinationScore,
lines 277-284) -/

noncomputable def computeCoordinationScore (intervals : List ℝ) : ℤ :=
  if intervals.length ≤ 1 then 0 else
  let mean := intervals.sum / intervals.length
  if mean = 0 then 0 else
  let std := Real.sqrt ((intervals.map (fun x => (x - mean) ^ 2)).sum / intervals.length)
  let cv := std / mean
  round (max (0:ℝ) (min 100 ((1 / (1 + cv)) * 100)))

/-- Specification-side mean of a list of reals. -/
noncomputable def specMean (l : List ℝ) : ℝ := l.sum / l.length

/-- Specification-side population standard deviation. -/
noncomputable def specStd (l : List ℝ) : ℝ :=
  Real.sqrt ((l.map (fun x => (x - specMean l) ^ 2)).sum / l.length)

/-- Coefficient of variation, population std over mean. -/
noncomputable def specCv (l : List ℝ) : ℝ := specStd l / specMean l

/-- Clamp as defined in EyeLab.tsx lines 59-61 and used by the spec. -/
noncomputable def clamp (n lo hi : ℝ) : ℝ := max lo (min hi n)

/-- C5.  coordinationScore is 0 for at most one interval or zero mean, and
otherwise rounds the clamped 100/(1+cv); in particular it is 0 on [] and
[x] and 100 on [5,5,5,5]. -/
theorem coordinationScore_spec :
    (∀ l : List ℝ, l.length ≤ 1 → computeCoordinationScore l = 0) ∧
    (∀ l : List ℝ, specMean l = 0 → computeCoordinationScore l = 0) ∧
    (∀ l : List ℝ, 1 < l.length → specMean l ≠ 0 →
        computeCoordinationScore l = round (clamp (100 / (1 + specCv l)) 0 100)) ∧
    computeCoordinationScore [] = 0 ∧
    (∀ x : ℝ, computeCoordinationScore [x] = 0) ∧
    computeCoordinationScore [5, 5, 5, 5] = 100 := by
  have h1 : ∀ l : List ℝ, l.length ≤ 1 → computeCoordinationScore l = 0 := by
    intro l h
    unfold computeCoordinationScore
    rw [if_pos h]
  have h2 : ∀ l : List ℝ, specMean l = 0 → computeCoordinationScore l = 0 := by
    intro l h
    unfold computeCoordinationScore
    by_cases hl : l.length ≤ 1
    · rw [if_pos hl]
    · rw [if_neg hl]
      unfold specMean at h
      simp only [h, if_pos]
  have h3 : ∀ l : List ℝ, 1 < l.length → specMean l ≠ 0 →
      computeCoordinationScore l = round (clamp (100 / (1 + specCv l)) 0 100) := by
    intro l hl hm
    unfold computeCoordinationScore
    rw [if_neg (by omega)]
    unfold specMean at hm
    simp only [if_neg hm]
    unfold clamp specCv specStd specMean
    rw [one_div_mul_eq_div]
  refine ⟨h1, h2, h3, h1 [] (by simp), fun x => h1 [x] (by simp), ?_⟩
  have hmean : specMean [(5:ℝ), 5, 5, 5] = 5 := by
    unfold specMean; norm_num
  rw [h3 [5,5,5,5] (by norm_num) (by rw [hmean]; norm_num)]
  have hstd : specStd [(5:ℝ), 5, 5, 5] = 0 := by
    unfold specStd
    rw [hmean]
    norm_num
  have hcv : specCv [(5:ℝ), 5, 5, 5] = 0 := by
    unfold specCv
    rw [hstd, hmean]
    norm_num
  rw [hcv]
  unfold clamp
  norm_num

/-- Witness for C5: a one-element interval list scores 0. -/
theorem coordinationScore_spec_witness :
    ([(3:ℝ)].length ≤ 1) ∧ computeCoordinationScore [(3:ℝ)] = 0 :=
  ⟨by simp, coordinationScore_spec.1 [(3:ℝ)] (by simp)⟩

/-! ### Inverse normal CDF and d-prime (EyeLab.tsx, invNorm lines 64-89,
nbackDPrime lines 412-424)

The Acklam-style rational approximation with its three branches, the
continuity-corrected hit and false-alarm rates (defaulting to 0.5 when the
denominator is 0), clamping to [1/(2 totalTrials), 1 - 1/(2 totalTrials)],
and rounding of the difference to 2 decimals via toFixed(2). -/

noncomputable def invNorm (p : ℝ) : ℝ :=
  let a1 : ℝ := -39.6968302866538
  let a2 : ℝ := 220.946098424521
  let a3 : ℝ := -275.928510446969
  let a4 : ℝ := 138.357751867269
  let a5 : ℝ := -30.6647980661472
  let a6 : ℝ := 2.50662827745924
  let b1 : ℝ := -54.4760987982241
  let b2 : ℝ := 161.585836858041
  let b3 : ℝ := -155.698979859887
  let b4 : ℝ := 66.8013118877197
  let b5 : ℝ := -13.2806815528857
  let c1 : ℝ := -0.00778489400243029
  let c2 : ℝ := -0.322396458041136
  let c3 : ℝ := -2.40075827716184
  let c4 : ℝ := -2.54973253934373
  let c5 : ℝ := 4.37466414146497
  let c6 : ℝ := 2.93816398269878
  let d1 : ℝ := 0.00778469570904146
  let d2 : ℝ := 0.32246712907004
  let d3 : ℝ := 2.445134137143
  let d4 : ℝ := 3.75440866190742
  let plow : ℝ := 0.02425
  let phigh : ℝ := 1 - plow
  if p < plow then
    let q := Real.sqrt ((-2) * Real.log p)
    (((((c1 * q + c2) * q + c3) * q + c4) * q + c5) * q + c6) /
      ((((d1 * q + d2) * q + d3) * q + d4) * q + 1)
  else if phigh < p then
    let q := Real.sqrt ((-2) * Real.log (1 - p));
    -(((((c1 * q + c2) * q + c3) * q + c4) * q + c5) * q + c6) /
      ((((d1 * q + d2) * q + d3) * q + d4) * q + 1)
  else
    let q := p - 0.5
    let r := q * q
    ((((((a1 * r + a2) * r + a3) * r + a4) * r + a5) * r + a6) * q) /
      ((((((b1 * r + b2) * r + b3) * r + b4) * r + b5) * r + 1))

/-- Rounding to 2 decimals, the effect of +(x).toFixed(2). -/
noncomputable def roundTo2 (x : ℝ) : ℝ := ((round (x * 100) : ℤ) : ℝ) / 100

noncomputable def nbackDPrime (hits misses fas crs : ℕ) : ℝ :=
  let hitRate : ℝ := if 0 < hits + misses then (hits : ℝ) / ((hits : ℝ) + misses) else 0.5
  let faRate : ℝ := if 0 < fas + crs then (fas : ℝ) / ((fas : ℝ) + crs) else 0.5
  let adjHit := clamp hitRate (1 / (2 * totalTrials)) (1 - 1 / (2 * totalTrials))
  let adjFA := clamp faRate (1 / (2 * totalTrials)) (1 - 1 / (2 * totalTrials))
  roundTo2 (invNorm adjHit - invNorm adjFA)

/-- C7.  With all four counts 0 the rates default to 0.5, the clamp to
[1/40, 39/40] is the identity on 0.5, invNorm(0.5) = 0 in the central
branch, and the rounded difference is exactly 0. -/
theorem dprime_all_zero :
    nbackDPrime 0 0 0 0 = 0 ∧
    clamp 0.5 (1 / (2 * totalTrials)) (1 - 1 / (2 * totalTrials)) = 0.5 ∧
    invNorm 0.5 = 0 := by
  have hclamp : clamp 0.5 (1 / (2 * (totalTrials:ℝ))) (1 - 1 / (2 * totalTrials)) = 0.5 := by
    unfold clamp totalTrials
    norm_num
  have hinv : invNorm 0.5 = 0 := by
    unfold invNorm
    rw [if_neg (by norm_num), if_neg (by norm_num)]
    norm_num
  refine ⟨?_, hclamp, hinv⟩
  unfold nbackDPrime
  norm_num [hclamp, hinv, roundTo2]

/-! ### Jitter from the pitch history (EyeLab.tsx, analyzeAudio,
lines 1057-1069)

Once the pitch history is long enough the caller forms the absolute
consecutive deltas, their mean and population standard deviation, and the
relative jitter sd/mean (0 when the mean is 0).  The guard in the source is
pitchHistory.current.length > 10, i.e. at least 11 entries. -/

noncomputable def jitterOfHistory (arr : List ℝ) : Option ℝ :=
  if 10 < arr.length then
    let deltas := List.zipWith (fun v a => |v - a|) arr.tail arr
    let m := deltas.sum / deltas.length
    let sd := Real.sqrt ((deltas.map (fun b => (b - m) ^ 2)).sum / deltas.length)
    some (if m = 0 then 0 else sd / m)
  else none

/-- Specification-side deltas: absolute differences of consecutive values. -/
noncomputable def specDeltas (arr : List ℝ) : List ℝ :=
  List.zipWith (fun a b => |b - a|) arr arr.tail

/-- Specification-side relative jitter: stddev(deltas)/mean(deltas), 0 when
the mean is 0. -/
noncomputable def specJitter (arr : List ℝ) : ℝ :=
  if specMean (specDeltas arr) = 0 then 0
  else specStd (specDeltas arr) / specMean (specDeltas arr)

theorem specDeltas_eq (arr : List ℝ) :
    specDeltas arr = List.zipWith (fun v a => |v - a|) arr.tail arr := by
  unfold specDeltas
  rw [List.zipWith_comm (fun a b => |b - a|)]

/-- C8 (amended).  With strictly more than 10 accepted pitch values in the
history the caller produces jitter = stddev(deltas)/mean(deltas) over the
absolute consecutive deltas (0 when the mean is 0); with 10 or fewer values
no jitter is produced.  The amendment replaces the threshold "at least 10"
by "strictly more than 10": the source guard is length > 10. -/
theorem jitter_threshold_amended (arr : List ℝ) :
    (10 < arr.length → jitterOfHistory arr = some (specJitter arr)) ∧
    (arr.length ≤ 10 → jitterOfHistory arr = none) := by
  constructor
  · intro h
    unfold jitterOfHistory
    rw [if_pos h]
    unfold specJitter
    rw [specDeltas_eq]
    unfold specStd specMean
    rfl
  · intro h
    unfold jitterOfHistory
    rw [if_neg (by omega)]

/-- Witness for C8 (amended): eleven identical pitches give deltas all 0,
mean 0, hence jitter some 0. -/
theorem jitter_threshold_amended_witness :
    jitterOfHistory (List.replicate 11 (100:ℝ)) =
      some (specJitter (List.replicate 11 (100:ℝ))) :=
  (jitter_threshold_amended (List.replicate 11 (100:ℝ))).1 (by simp)

/-- C8 (counterexample).  A history of exactly 10 accepted pitch values, for
which the claim demands a jitter value, produces none: the source guard is
length > 10, not length >= 10. -/
theorem jitter_threshold_cex :
    10 ≤ (List.replicate 10 (100:ℝ)).length ∧
    jitterOfHistory (List.replicate 10 (100:ℝ)) = none := by
  constructor
  · simp
  · unfold jitterOfHistory
    rw [if_neg (by simp)]

/-! ### Autocorrelation pitch estimator (EyeLab.tsx, autocorrelatePitch,
lines 755-806)

RMS gate at 0.001, DC removal, normalized autocorrelation over the lag
range floor(sampleRate/800) .. floor(sampleRate/50) with a strict-greater
peak scan from bestLag = -1, bestCorr = 0, a 0.01 confidence gate, and
f0 = sampleRate / bestLag guarded by bestLag > 0.  A negative lag (possible
only for negative sample rates) reads out of the Float32Array bounds in the
source, making the correlation NaN, which never wins a strict comparison;
it is modelled as 0, which likewise never updates the scan state. -/

noncomputable def pitchRms (buf : List ℝ) : ℝ :=
  Real.sqrt ((buf.map (fun x => x * x)).sum / buf.length)

noncomputable def pitchMean (buf : List ℝ) : ℝ := buf.sum / buf.length

/-- The DC-removed frame, as a function of the index. -/
noncomputable def pitchNormFn (buf : List ℝ) (i : Nat) : ℝ := buf.getD i 0 - pitchMean buf

noncomputable def pitchNormSum (buf : List ℝ) : ℝ :=
  ∑ i in Finset.range buf.length, pitchNormFn buf i * pitchNormFn buf i

noncomputable def pitchAutocorr (buf : List ℝ) (lag : Int) : ℝ :=
  ∑ i in Finset.range (buf.length - lag.toNat),
    pitchNormFn buf i * pitchNormFn buf (i + lag.toNat)

noncomputable def pitchCorr (buf : List ℝ) (lag : Int) : ℝ :=
  if lag < 0 then 0
  else if 0 < pitchNormSum buf then pitchAutocorr buf lag / pitchNormSum buf else 0

noncomputable def pitchLagRange (sampleRate : ℝ) : List Int :=
  intRange ⌊sampleRate / 800⌋ ⌊sampleRate / 50⌋

noncomputable def autocorrelatePitch (buf : List ℝ) (sampleRate : ℝ) : Option ℝ × ℝ :=
  if pitchRms buf < 0.001 then (none, pitchRms buf)
  else if (bestScan (pitchCorr buf) (pitchLagRange sampleRate) (-1, 0)).2 < 0.01 then
    (none, pitchRms buf)
  else
    (if 0 < (bestScan (pitchCorr buf) (pitchLagRange sampleRate) (-1, 0)).1 then
       some (sampleRate / ((bestScan (pitchCorr buf) (pitchLagRange sampleRate) (-1, 0)).1 : ℝ))
     else none,
     pitchRms buf)

theorem pitchNormSum_nonneg (buf : List ℝ) : 0 ≤ pitchNormSum buf :=
  Finset.sum_nonneg (fun i _ => mul_self_nonneg _)

/-- Cauchy-Schwarz bound: the raw autocorrelation at any nonnegative lag is
at most the zero-lag energy. -/
theorem pitchAutocorr_le (buf : List ℝ) (lag : Int) :
    pitchAutocorr buf lag ≤ pitchNormSum buf := by
  set n := buf.length with hn
  set d := lag.toNat with hd
  set f : Nat → ℝ := pitchNormFn buf with hfdef
  have hsq : ∀ (s : Finset ℕ) (g : ℕ → ℝ), (∑ i in s, g i * g i) = ∑ i in s, g i ^ 2 := by
    intro s g
    exact Finset.sum_congr rfl (fun i _ => (sq (g i)).symm ▸ (pow_two (g i)).symm ▸ rfl)
  have hS1 : (∑ i in Finset.range (n - d), f i ^ 2) ≤ pitchNormSum buf := by
    rw [pitchNormSum, hsq]
    exact Finset.sum_le_sum_of_subset_of_nonneg
      (Finset.range_subset.mpr (Nat.sub_le _ _)) (fun i _ _ => sq_nonneg _)
  have hS2 : (∑ i in Finset.range (n - d), f (i + d) ^ 2) ≤ pitchNormSum buf := by
    rw [pitchNormSum, hsq]
    have hre : (∑ i in Finset.range (n - d), f (i + d) ^ 2) =
        ∑ j in Finset.Ico d (n - d + d), f j ^ 2 := by
      rw [Finset.sum_Ico_eq_sum_range]
      simp only [Nat.add_sub_cancel]
      exact Finset.sum_congr rfl (fun i _ => by rw [Nat.add_comm])
    rw [hre]
    refine Finset.sum_le_sum_of_subset_of_nonneg ?_ (fun i _ _ => sq_nonneg _)
    intro j hj
    have := Finset.mem_Ico.mp hj
    exact Finset.mem_range.mpr (by omega)
  have hCS : (pitchAutocorr buf lag) ^ 2 ≤
      (∑ i in Finset.range (n - d), f i ^ 2) * (∑ i in Finset.range (n - d), f (i + d) ^ 2) :=
    Finset.sum_mul_sq_le_sq_mul_sq _ _ _
  have hN : 0 ≤ pitchNormSum buf := pitchNormSum_nonneg buf
  have hsq2 : (pitchAutocorr buf lag) ^ 2 ≤ pitchNormSum buf * pitchNormSum buf := by
    calc (pitchAutocorr buf lag) ^ 2
        ≤ (∑ i in Finset.range (n - d), f i ^ 2) *
            (∑ i in Finset.range (n - d), f (i + d) ^ 2) := hCS
      _ ≤ pitchNormSum buf * pitchNormSum buf := by
          apply mul_le_mul hS1 hS2 (Finset.sum_nonneg (fun i _ => sq_nonneg _)) hN
  calc pitchAutocorr buf lag ≤ |pitchAutocorr buf lag| := le_abs_self _
    _ = Real.sqrt ((pitchAutocorr buf lag) ^ 2) := (Real.sqrt_sq_eq_abs _).symm
    _ ≤ Real.sqrt (pitchNormSum buf * pitchNormSum buf) := Real.sqrt_le_sqrt hsq2
    _ = pitchNormSum buf := Real.sqrt_mul_self hN

/-- Every normalized correlation is at most 1. -/
theorem pitchCorr_le_one (buf : List ℝ) (lag : Int) : pitchCorr buf lag ≤ 1 := by
  unfold pitchCorr
  split
  · norm_num
  · split
    · next h => exact (div_le_one h).mpr (pitchAutocorr_le buf lag)
    · norm_num

/-- At lag 0 with positive energy the normalized correlation is exactly 1. -/
theorem pitchCorr_zero (buf : List ℝ) (h : 0 < pitchNormSum buf) : pitchCorr buf 0 = 1 := by
  unfold pitchCorr
  rw [if_neg (by norm_num), if_pos h]
  have : pitchAutocorr buf 0 = pitchNormSum buf := by
    unfold pitchAutocorr pitchNormSum
    simp
  rw [this, div_self (ne_of_gt h)]

/-- With zero energy every correlation is 0. -/
theorem pitchCorr_of_nonpos (buf : List ℝ) (h : ¬ 0 < pitchNormSum buf) (lag : Int) :
    pitchCorr buf lag = 0 := by
  unfold pitchCorr
  simp [h]

/-- A negative lag never contributes (NaN in the source, modelled as 0). -/
theorem pitchCorr_neg (buf : List ℝ) (lag : Int) (h : lag < 0) : pitchCorr buf lag = 0 := by
  unfold pitchCorr
  rw [if_pos h]

/-- Preconditions-free fold invariants: monotonicity, domination, and that
any change lands on a scanned index realising the best value. -/
theorem bestScan_basic (f : Int → ℝ) :
    ∀ (ks : List Int) (acc : Int × ℝ),
      acc.2 ≤ (bestScan f ks acc).2 ∧
      (∀ k ∈ ks, f k ≤ (bestScan f ks acc).2) ∧
      (bestScan f ks acc = acc ∨
        ((bestScan f ks acc).1 ∈ ks ∧ f (bestScan f ks acc).1 = (bestScan f ks acc).2)) := by
  intro ks
  induction ks with
  | nil => intro acc; simp [bestScan_nil]
  | cons k ks ih =>
    intro acc
    by_cases hup : acc.2 < f k
    · have hstep : bestScan f (k :: ks) acc = bestScan f ks (k, f k) := by
        rw [bestScan_cons, if_pos hup]
      obtain ⟨ih1, ih2, ih3⟩ := ih (k, f k)
      rw [hstep]
      refine ⟨le_trans (le_of_lt hup) ih1, ?_, ?_⟩
      · intro j hj
        rcases List.mem_cons.mp hj with hjk | hj'
        · subst hjk; exact ih1
        · exact ih2 j hj'
      · rcases ih3 with heq | ⟨hmem, hval⟩
        · refine Or.inr ⟨?_, ?_⟩
          · rw [heq]; exact List.mem_cons_self _ _
          · rw [heq]
        · exact Or.inr ⟨List.mem_cons_of_mem _ hmem, hval⟩
    · have hstep : bestScan f (k :: ks) acc = bestScan f ks acc := by
        rw [bestScan_cons, if_neg hup]
      obtain ⟨ih1, ih2, ih3⟩ := ih acc
      rw [hstep]
      refine ⟨ih1, ?_, ?_⟩
      · intro j hj
        rcases List.mem_cons.mp hj with hjk | hj'
        · subst hjk; exact le_trans (not_lt.mp hup) ih1
        · exact ih2 j hj'
      · rcases ih3 with heq | ⟨hmem, hval⟩
        · exact Or.inl heq
        · exact Or.inr ⟨List.mem_cons_of_mem _ hmem, hval⟩

/-- C6 (amended).  For sample rates of at least 800 (so that the minimum
lag floor(sampleRate/800) is at least 1), the estimator returns null when
the RMS is below 0.001 or every normalized correlation over the lag range
is below 0.01; and when some correlation reaches 0.01 it returns
sampleRate / bestLag where bestLag is the first (shortest) lag attaining
the maximal correlation under strict greater-than.  The returned second
component is always the RMS.  The amendment restricts the claim to
sampleRate >= 800: below that the minimum lag is 0, lag 0 wins with
correlation 1, and the source returns null despite the high correlation
(see the counterexample). -/
theorem pitch_autocorr_amended (buf : List ℝ) (sr : ℝ) (h800 : 800 ≤ sr) :
    ((autocorrelatePitch buf sr).2 = pitchRms buf) ∧
    (pitchRms buf < 0.001 → (autocorrelatePitch buf sr).1 = none) ∧
    (¬ pitchRms buf < 0.001 →
      ((∀ lag ∈ pitchLagRange sr, pitchCorr buf lag < 0.01) →
        (autocorrelatePitch buf sr).1 = none) ∧
      ((∃ lag ∈ pitchLagRange sr, 0.01 ≤ pitchCorr buf lag) →
        ∃ L, firstArgmaxProp (pitchCorr buf) (pitchLagRange sr) L ∧
          (autocorrelatePitch buf sr).1 = some (sr / (L : ℝ)))) := by
  have hmin : (1:ℤ) ≤ ⌊sr / 800⌋ := by
    rw [Int.le_floor]
    push_cast
    rw [le_div_iff (by norm_num : (0:ℝ) < 800)]
    linarith
  have hpw : (pitchLagRange sr).Pairwise (· < ·) := by
    unfold pitchLagRange; exact intRange_pairwise _ _
  have hgt : ∀ k ∈ pitchLagRange sr, (-1 : ℤ) < k := by
    intro k hk
    have := (intRange_mem.mp hk).1
    omega
  obtain ⟨hs1, hs2, hs3, hs4⟩ :=
    bestScan_spec (pitchCorr buf) (pitchLagRange sr) (-1, 0) hpw hgt
  refine ⟨?_, ?_, ?_⟩
  · unfold autocorrelatePitch
    split
    · rfl
    · split
      · rfl
      · rfl
  · intro h
    unfold autocorrelatePitch
    rw [if_pos h]
  · intro hrm
    constructor
    · intro hall
      have hlow : (bestScan (pitchCorr buf) (pitchLagRange sr) (-1, 0)).2 < 0.01 := by
        rcases hs3 with heq | ⟨hmem, hval, _⟩
        · rw [heq]; norm_num
        · rw [← hval]; exact hall _ hmem
      unfold autocorrelatePitch
      rw [if_neg hrm, if_pos hlow]
    · rintro ⟨lag0, hlag0, hge⟩
      have hhigh : ¬ (bestScan (pitchCorr buf) (pitchLagRange sr) (-1, 0)).2 < 0.01 :=
        not_lt.mpr (le_trans hge (hs2 lag0 hlag0))
      rcases hs3 with heq | ⟨hmem, hval, _⟩
      · rw [heq] at hhigh; norm_num at hhigh
      · have hL1 : (1:ℤ) ≤ (bestScan (pitchCorr buf) (pitchLagRange sr) (-1, 0)).1 := by
          have := (intRange_mem.mp hmem).1
          omega
        refine ⟨(bestScan (pitchCorr buf) (pitchLagRange sr) (-1, 0)).1,
          ⟨hmem, ?_, ?_⟩, ?_⟩
        · intro j hj; rw [hval]; exact hs2 j hj
        · intro j hj hjlt; rw [hval]; exact hs4 j hj hjlt
        · unfold autocorrelatePitch
          rw [if_neg hrm, if_neg hhigh,
            if_pos (show (0:ℤ) < (bestScan (pitchCorr buf) (pitchLagRange sr) (-1, 0)).1 by
              omega)]

/-! ### Concrete frame evaluations

Two small frames drive the pitch-estimator counterexample and witnesses:
the four-sample square wave [1, 1, -1, -1] (used with sampleRate 900, where
the minimum lag is 1 and lag 1 wins) and the two-sample frame [1, -1] (used
with sampleRate 50, where the minimum lag is 0 and lag 0 wins). -/

theorem pitchMean_sq4 : pitchMean [(1:ℝ), 1, -1, -1] = 0 := by
  unfold pitchMean
  norm_num

theorem pitchNormSum_sq4 : pitchNormSum [(1:ℝ), 1, -1, -1] = 4 := by
  unfold pitchNormSum pitchNormFn
  rw [pitchMean_sq4]
  norm_num [Finset.sum_range_succ, List.getD_cons_zero, List.getD_cons_succ]

theorem pitchCorr_sq4_one : pitchCorr [(1:ℝ), 1, -1, -1] 1 = 1 / 4 := by
  unfold pitchCorr
  rw [if_neg (by norm_num), if_pos (by rw [pitchNormSum_sq4]; norm_num),
    pitchNormSum_sq4]
  unfold pitchAutocorr pitchNormFn
  rw [pitchMean_sq4]
  norm_num [Finset.sum_range_succ, List.getD_cons_zero, List.getD_cons_succ]

theorem pitchCorr_sq4_two : pitchCorr [(1:ℝ), 1, -1, -1] 2 = -(1 / 2) := by
  unfold pitchCorr
  rw [if_neg (by norm_num), if_pos (by rw [pitchNormSum_sq4]; norm_num),
    pitchNormSum_sq4]
  unfold pitchAutocorr pitchNormFn
  rw [pitchMean_sq4]
  rw [show (2:ℤ).toNat = 2 from rfl]
  norm_num [Finset.sum_range_succ, List.getD_cons_zero, List.getD_cons_succ]

theorem pitchCorr_sq4_three : pitchCorr [(1:ℝ), 1, -1, -1] 3 = -(1 / 4) := by
  unfold pitchCorr
  rw [if_neg (by norm_num), if_pos (by rw [pitchNormSum_sq4]; norm_num),
    pitchNormSum_sq4]
  unfold pitchAutocorr pitchNormFn
  rw [pitchMean_sq4]
  rw [show (3:ℤ).toNat = 3 from rfl]
  norm_num [Finset.sum_range_succ, List.getD_cons_zero, List.getD_cons_succ]

theorem pitchCorr_sq4_ge (lag : Int) (h : 4 ≤ lag) : pitchCorr [(1:ℝ), 1, -1, -1] lag = 0 := by
  unfold pitchCorr
  rw [if_neg (by omega)]
  have hlen : ([(1:ℝ), 1, -1, -1].length - lag.toNat) = 0 := by
    simp only [List.length_cons, List.length_nil]
    omega
  unfold pitchAutocorr
  rw [hlen]
  simp

theorem pitchRms_sq4 : pitchRms [(1:ℝ), 1, -1, -1] = 1 := by
  unfold pitchRms
  norm_num

theorem pitchLagRange_900 : pitchLagRange 900 = intRange 1 18 := by
  unfold pitchLagRange
  have h1 : ⌊(900:ℝ) / 800⌋ = 1 := by
    rw [Int.floor_eq_iff]
    norm_num
  have h2 : ⌊(900:ℝ) / 50⌋ = 18 := by
    rw [show (900:ℝ) / 50 = ((18:ℤ) : ℝ) by norm_num, Int.floor_intCast]
  rw [h1, h2]

theorem pitchScan_900 :
    bestScan (pitchCorr [(1:ℝ), 1, -1, -1]) (intRange 1 18) (-1, 0) = (1, 1 / 4) := by
  rw [intRange_append (show (1:ℤ) ≤ 3 + 1 by norm_num) (show (3:ℤ) ≤ 18 by norm_num),
    bestScan_append]
  have h13 : intRange (1:ℤ) 3 = [1, 2, 3] := by decide
  rw [h13, bestScan_cons, pitchCorr_sq4_one]
  rw [if_pos (by norm_num)]
  rw [bestScan_cons, pitchCorr_sq4_two]
  rw [if_neg (by norm_num)]
  rw [bestScan_cons, pitchCorr_sq4_three]
  rw [if_neg (by norm_num), bestScan_nil]
  exact bestScan_untouched _ _ _ (fun k hk => by
    rw [pitchCorr_sq4_ge k (intRange_mem.mp hk).1]
    norm_num)

theorem pitchEval_900 : (autocorrelatePitch [(1:ℝ), 1, -1, -1] 900).1 = some 900 := by
  unfold autocorrelatePitch
  rw [pitchLagRange_900, pitchScan_900, pitchRms_sq4]
  rw [if_neg (by norm_num), if_neg (by norm_num), if_pos (by norm_num)]
  norm_num

theorem pitchMean_sq2 : pitchMean [(1:ℝ), -1] = 0 := by
  unfold pitchMean
  norm_num

theorem pitchNormSum_sq2 : pitchNormSum [(1:ℝ), -1] = 2 := by
  unfold pitchNormSum pitchNormFn
  rw [pitchMean_sq2]
  norm_num [Finset.sum_range_succ, List.getD_cons_zero, List.getD_cons_succ]

theorem pitchCorr_sq2_zero : pitchCorr [(1:ℝ), -1] 0 = 1 :=
  pitchCorr_zero _ (by rw [pitchNormSum_sq2]; norm_num)

theorem pitchCorr_sq2_one : pitchCorr [(1:ℝ), -1] 1 = -(1 / 2) := by
  unfold pitchCorr
  rw [if_neg (by norm_num), if_pos (by rw [pitchNormSum_sq2]; norm_num),
    pitchNormSum_sq2]
  unfold pitchAutocorr pitchNormFn
  rw [pitchMean_sq2]
  norm_num [Finset.sum_range_succ, List.getD_cons_zero, List.getD_cons_succ]

theorem pitchRms_sq2 : pitchRms [(1:ℝ), -1] = 1 := by
  unfold pitchRms
  norm_num

theorem pitchLagRange_50 : pitchLagRange 50 = intRange 0 1 := by
  unfold pitchLagRange
  have h1 : ⌊(50:ℝ) / 800⌋ = 0 := by
    rw [Int.floor_eq_iff]
    norm_num
  have h2 : ⌊(50:ℝ) / 50⌋ = 1 := by
    rw [show (50:ℝ) / 50 = ((1:ℤ) : ℝ) by norm_num, Int.floor_intCast]
  rw [h1, h2]

theorem pitchScan_50 :
    bestScan (pitchCorr [(1:ℝ), -1]) (intRange 0 1) (-1, 0) = (0, 1) := by
  have h01 : intRange (0:ℤ) 1 = [0, 1] := by decide
  rw [h01, bestScan_cons, pitchCorr_sq2_zero]
  rw [if_pos (by norm_num)]
  rw [bestScan_cons, pitchCorr_sq2_one]
  rw [if_neg (by norm_num), bestScan_nil]

theorem pitchEval_50 : (autocorrelatePitch [(1:ℝ), -1] 50).1 = none := by
  unfold autocorrelatePitch
  rw [pitchLagRange_50, pitchScan_50, pitchRms_sq2]
  rw [if_neg (by norm_num), if_neg (by norm_num), if_neg (by norm_num)]

/-- C6 (counterexample).  At sampleRate 50 the lag range starts at
floor(50/800) = 0; for the frame [1, -1] the RMS is 1 (not silent) and
lag 0 attains correlation 1 >= 0.01, so the claim demands a non-null
fundamental sampleRate / bestLag; the source instead returns null because
bestLag = 0 fails the bestLag > 0 guard. -/
theorem pitch_autocorr_cex :
    ¬ pitchRms [(1:ℝ), -1] < 0.001 ∧
    (∃ lag ∈ pitchLagRange 50, 0.01 ≤ pitchCorr [(1:ℝ), -1] lag) ∧
    (autocorrelatePitch [(1:ℝ), -1] 50).1 = none := by
  refine ⟨by rw [pitchRms_sq2]; norm_num, ⟨0, ?_, ?_⟩, pitchEval_50⟩
  · rw [pitchLagRange_50]
    exact intRange_mem.mpr ⟨le_refl 0, by norm_num⟩
  · rw [pitchCorr_sq2_zero]
    norm_num

/-- Witness for C6 (amended) at the square frame [1,1,-1,-1] and
sampleRate 900: lag 1 has correlation 1/4 >= 0.01, so a first-argmax lag L
exists with fundamental 900 / L. -/
theorem pitch_autocorr_amended_witness :
    ∃ L, firstArgmaxProp (pitchCorr [(1:ℝ), 1, -1, -1]) (pitchLagRange 900) L ∧
      (autocorrelatePitch [(1:ℝ), 1, -1, -1] 900).1 = some (900 / (L : ℝ)) :=
  ((pitch_autocorr_amended [(1:ℝ), 1, -1, -1] 900 (by norm_num)).2.2
      (by rw [pitchRms_sq4]; norm_num)).2
    ⟨1, by rw [pitchLagRange_900]; exact intRange_mem.mpr ⟨le_refl 1, by norm_num⟩,
      by rw [pitchCorr_sq4_one]; norm_num⟩

/-- C10.  Whenever the estimator returns a non-null fundamental, the chosen
lag L satisfies 1 <= floor(sampleRate/800) <= L <= floor(sampleRate/50), the
fundamental equals sampleRate / L, is at least 50 Hz and at most
sampleRate / floor(sampleRate/800); and the fundamental can exceed 800 Hz
(the square frame at sampleRate 900 yields 900 Hz). -/
theorem pitch_f0_band :
    (∀ (buf : List ℝ) (sr f0 : ℝ), (autocorrelatePitch buf sr).1 = some f0 →
      1 ≤ ⌊sr / 800⌋ ∧
      ∃ L : ℤ, ⌊sr / 800⌋ ≤ L ∧ L ≤ ⌊sr / 50⌋ ∧ 0 < L ∧ f0 = sr / (L : ℝ) ∧
        50 ≤ f0 ∧ f0 ≤ sr / ((⌊sr / 800⌋ : ℤ) : ℝ)) ∧
    (∃ (buf : List ℝ) (sr f0 : ℝ), (autocorrelatePitch buf sr).1 = some f0 ∧ 800 < f0) := by
  constructor
  · intro buf sr f0 h
    unfold autocorrelatePitch at h
    by_cases h1 : pitchRms buf < 0.001
    · rw [if_pos h1] at h; exact absurd h (by simp)
    rw [if_neg h1] at h
    by_cases h2 : (bestScan (pitchCorr buf) (pitchLagRange sr) (-1, 0)).2 < 0.01
    · rw [if_pos h2] at h; exact absurd h (by simp)
    rw [if_neg h2] at h
    by_cases h3 : 0 < (bestScan (pitchCorr buf) (pitchLagRange sr) (-1, 0)).1
    swap
    · rw [if_neg h3] at h; exact absurd h (by simp)
    rw [if_pos h3] at h
    have hf0 : f0 = sr / ((bestScan (pitchCorr buf) (pitchLagRange sr) (-1, 0)).1 : ℝ) := by
      simpa using h.symm
    obtain ⟨hb1, hb2, hb3⟩ := bestScan_basic (pitchCorr buf) (pitchLagRange sr) (-1, 0)
    have hmem : (bestScan (pitchCorr buf) (pitchLagRange sr) (-1, 0)).1 ∈ pitchLagRange sr := by
      rcases hb3 with heq | hk
      · rw [heq] at h3; norm_num at h3
      · exact hk.1
    have hrange : ⌊sr / 800⌋ ≤ (bestScan (pitchCorr buf) (pitchLagRange sr) (-1, 0)).1 ∧
        (bestScan (pitchCorr buf) (pitchLagRange sr) (-1, 0)).1 ≤ ⌊sr / 50⌋ := by
      have := intRange_mem.mp (show _ ∈ intRange ⌊sr / 800⌋ ⌊sr / 50⌋ from hmem)
      exact this
    have hmin : (1:ℤ) ≤ ⌊sr / 800⌋ := by
      by_contra hminc
      push_neg at hminc
      by_cases hNS : 0 < pitchNormSum buf
      · have hmax0 : (0:ℤ) ≤ ⌊sr / 50⌋ := le_trans (by omega) hrange.2
        have hsplit1 : pitchLagRange sr =
            intRange ⌊sr / 800⌋ (-1) ++ intRange 0 ⌊sr / 50⌋ := by
          unfold pitchLagRange
          exact intRange_append (by omega) (by omega)
        have hsplit2 : intRange (0:ℤ) ⌊sr / 50⌋ = intRange 0 0 ++ intRange 1 ⌊sr / 50⌋ :=
          intRange_append (by omega) hmax0
        have h00 : intRange (0:ℤ) 0 = [0] := by decide
        have hnegscan :
            bestScan (pitchCorr buf) (intRange ⌊sr / 800⌋ (-1)) (-1, 0) = (-1, 0) :=
          bestScan_untouched _ _ _ (fun k hk =>
            le_of_eq (pitchCorr_neg buf k (by have := (intRange_mem.mp hk).2; omega)))
        have hzero : bestScan (pitchCorr buf) [0] (-1, 0) = (0, 1) := by
          rw [bestScan_cons, pitchCorr_zero buf hNS, if_pos (by norm_num), bestScan_nil]
        have htail : bestScan (pitchCorr buf) (intRange 1 ⌊sr / 50⌋) (0, 1) = (0, 1) :=
          bestScan_untouched _ _ _ (fun k _ => by simpa using pitchCorr_le_one buf k)
        have hres : bestScan (pitchCorr buf) (pitchLagRange sr) (-1, 0) = (0, 1) := by
          rw [hsplit1, bestScan_append, hnegscan, hsplit2, h00, bestScan_append, hzero, htail]
        rw [hres] at h3
        norm_num at h3
      · have hres : bestScan (pitchCorr buf) (pitchLagRange sr) (-1, 0) = (-1, 0) :=
          bestScan_untouched _ _ _ (fun k _ => le_of_eq (pitchCorr_of_nonpos buf hNS k))
        rw [hres] at h2
        norm_num at h2
    have hsr800 : (800:ℝ) ≤ sr := by
      have h1r : (1:ℝ) ≤ sr / 800 := by exact_mod_cast Int.le_floor.mp hmin
      rw [le_div_iff₀ (by norm_num : (0:ℝ) < 800)] at h1r
      linarith
    have hLposR : (0:ℝ) < ((bestScan (pitchCorr buf) (pitchLagRange sr) (-1, 0)).1 : ℝ) := by
      exact_mod_cast h3
    have hminposR : (0:ℝ) < ((⌊sr / 800⌋ : ℤ) : ℝ) := by
      exact_mod_cast (by omega : (0:ℤ) < ⌊sr / 800⌋)
    refine ⟨hmin, (bestScan (pitchCorr buf) (pitchLagRange sr) (-1, 0)).1,
      hrange.1, hrange.2, h3, hf0, ?_, ?_⟩
    · rw [hf0, le_div_iff₀ hLposR]
      have hle : ((bestScan (pitchCorr buf) (pitchLagRange sr) (-1, 0)).1 : ℝ) ≤ sr / 50 :=
        le_trans (by exact_mod_cast hrange.2) (Int.floor_le _)
      nlinarith [hle]
    · rw [hf0]
      have hcst : ((⌊sr / 800⌋ : ℤ) : ℝ) ≤
          ((bestScan (pitchCorr buf) (pitchLagRange sr) (-1, 0)).1 : ℝ) := by
        exact_mod_cast hrange.1
      exact div_le_div_of_nonneg_left (by linarith) hminposR hcst
  · exact ⟨[(1:ℝ), 1, -1, -1], 900, 900, pitchEval_900, by norm_num⟩

/-- Witness for C10 at the square frame and sampleRate 900: the hypothesis
of the universal part holds with fundamental 900. -/
theorem pitch_f0_band_witness :
    1 ≤ ⌊(900:ℝ) / 800⌋ ∧
    ∃ L : ℤ, ⌊(900:ℝ) / 800⌋ ≤ L ∧ L ≤ ⌊(900:ℝ) / 50⌋ ∧ 0 < L ∧ (900:ℝ) = 900 / (L : ℝ) ∧
      (50:ℝ) ≤ 900 ∧ (900:ℝ) ≤ 900 / ((⌊(900:ℝ) / 800⌋ : ℤ) : ℝ) :=
  pitch_f0_band.1 [(1:ℝ), 1, -1, -1] 900 900 pitchEval_900

end NeuroScan
